import Mathlib

/-!
Shallow embedding of the `mxnet-the-straight-dope` notebooks, chiefly
`P05-C01-simple-rnn.ipynb` (the hand-written character-level RNN/GRU,
its optimizer and data handling, and the gluon language-model notebook
concatenated into the same file).

NDArrays are modelled either abstractly (an arbitrary type `V` together
with the framework operations the notebook calls, packaged in `NDOps`)
or concretely as `List ℚ` where a claim needs to look inside a vector.
All numeric framework kernels (`nd.dot`, `nd.tanh`, `nd.sigmoid`, the
notebook's `softmax`, `nd.exp`, gluon's `RNNModel` and
`SoftmaxCrossEntropyLoss`) are external library calls, so they enter the
embedding as opaque parameters; the repository's own control flow is
transcribed exactly.
-/

namespace StraightDope

/-- The framework (`mxnet.ndarray`) operations the notebook delegates to,
over an abstract NDArray type `V`: elementwise `+`, `*`, `-`, matrix
product `nd.dot`, the activations, the notebook's own `softmax` (which
takes a temperature), the scalar constant 1 (used in `1 - z`), and
multiplication of an NDArray by a Python scalar (`lr * param.grad`). -/
structure NDOps (V : Type) where
  add : V → V → V
  mul : V → V → V
  sub : V → V → V
  dot : V → V → V
  tanh : V → V
  sigmoid : V → V
  softmax : V → ℚ → V
  one : V
  smul : ℚ → V → V

/-- `simple_rnn(inputs, state, temperature)` from `P05-C01-simple-rnn.ipynb`:
for each `X` in `inputs`, `h = tanh(dot(X, Wxh) + dot(h, Whh) + bh)`,
`yhat = softmax(dot(h, Why) + by, temperature)` is appended to `outputs`,
and the pair `(outputs, h)` is returned. -/
def simple_rnn (ops : NDOps V) (Wxh Whh bh Why b_y : V) (temperature : ℚ) :
    List V → V → List V × V
  | [], h => ([], h)
  | X :: rest, h =>
    let h_linear := ops.add (ops.add (ops.dot X Wxh) (ops.dot h Whh)) bh
    let h' := ops.tanh h_linear
    let yhat_linear := ops.add (ops.dot h' Why) b_y
    let yhat := ops.softmax yhat_linear temperature
    let p := simple_rnn ops Wxh Whh bh Why b_y temperature rest h'
    (yhat :: p.1, p.2)

/-- The standard simple-RNN hidden-state recurrence as the spec states it:
the final hidden state `h_T` obtained by iterating
`h_t = tanh(X_t*Wxh + h_(t-1)*Whh + bh)` over the input sequence. -/
def rnn_spec_final (ops : NDOps V) (Wxh Whh bh : V) : List V → V → V
  | [], h => h
  | X :: rest, h =>
    rnn_spec_final ops Wxh Whh bh rest
      (ops.tanh (ops.add (ops.add (ops.dot X Wxh) (ops.dot h Whh)) bh))

/-- The standard simple-RNN output sequence as the spec states it: one
`yhat_t = softmax(h_t*Why + by)` per input element, where `h_t` follows
the recurrence `h_t = tanh(X_t*Wxh + h_(t-1)*Whh + bh)`. -/
def rnn_spec_outputs (ops : NDOps V) (Wxh Whh bh Why b_y : V) (temperature : ℚ) :
    List V → V → List V
  | [], _ => []
  | X :: rest, h =>
    let ht := ops.tanh (ops.add (ops.add (ops.dot X Wxh) (ops.dot h Whh)) bh)
    ops.softmax (ops.add (ops.dot ht Why) b_y) temperature ::
      rnn_spec_outputs ops Wxh Whh bh Why b_y temperature rest ht

/-- `gru_rnn(inputs, h, temperature)` from `P05-C01-simple-rnn.ipynb`:
`z = sigmoid(dot(X, Wxz) + dot(h, Whz) + bz)`,
`r = sigmoid(dot(X, Wxr) + dot(h, Whr) + br)`,
`h = z * h + (1 - z) * tanh(dot(X, Wxh) + dot(r * h, Whh) + bh)`,
`yhat = softmax(dot(h, Why) + by, temperature)`. -/
def gru_rnn (ops : NDOps V) (Wxz Whz bz Wxr Whr br Wxh Whh bh Why b_y : V)
    (temperature : ℚ) : List V → V → List V × V
  | [], h => ([], h)
  | X :: rest, h =>
    let z := ops.sigmoid (ops.add (ops.add (ops.dot X Wxz) (ops.dot h Whz)) bz)
    let r := ops.sigmoid (ops.add (ops.add (ops.dot X Wxr) (ops.dot h Whr)) br)
    let h' := ops.add (ops.mul z h)
      (ops.mul (ops.sub ops.one z)
        (ops.tanh (ops.add (ops.add (ops.dot X Wxh) (ops.dot (ops.mul r h) Whh)) bh)))
    let yhat := ops.softmax (ops.add (ops.dot h' Why) b_y) temperature
    let p := gru_rnn ops Wxz Whz bz Wxr Whr br Wxh Whh bh Why b_y temperature rest h'
    (yhat :: p.1, p.2)

/-- The GRU hidden-state update as the spec states it, for one step. -/
def gru_spec_step (ops : NDOps V) (Wxz Whz bz Wxr Whr br Wxh Whh bh : V)
    (X h : V) : V :=
  let z := ops.sigmoid (ops.add (ops.add (ops.dot X Wxz) (ops.dot h Whz)) bz)
  let r := ops.sigmoid (ops.add (ops.add (ops.dot X Wxr) (ops.dot h Whr)) br)
  ops.add (ops.mul z h)
    (ops.mul (ops.sub ops.one z)
      (ops.tanh (ops.add (ops.add (ops.dot X Wxh) (ops.dot (ops.mul r h) Whh)) bh)))

/-- The GRU final hidden state `h_T` as the spec states it. -/
def gru_spec_final (ops : NDOps V) (Wxz Whz bz Wxr Whr br Wxh Whh bh : V) :
    List V → V → V
  | [], h => h
  | X :: rest, h =>
    gru_spec_final ops Wxz Whz bz Wxr Whr br Wxh Whh bh rest
      (gru_spec_step ops Wxz Whz bz Wxr Whr br Wxh Whh bh X h)

/-- The GRU output sequence as the spec states it: one
`yhat_t = softmax(h_t*Why + by)` per input element. -/
def gru_spec_outputs (ops : NDOps V) (Wxz Whz bz Wxr Whr br Wxh Whh bh Why b_y : V)
    (temperature : ℚ) : List V → V → List V
  | [], _ => []
  | X :: rest, h =>
    let ht := gru_spec_step ops Wxz Whz bz Wxr Whr br Wxh Whh bh X h
    ops.softmax (ops.add (ops.dot ht Why) b_y) temperature ::
      gru_spec_outputs ops Wxz Whz bz Wxr Whr br Wxh Whh bh Why b_y temperature rest ht

/-- A notebook parameter NDArray together with the gradient buffer
attached to it by `attach_grad()`. -/
structure Param (V : Type) where
  data : V
  grad : V

/-- `SGD(params, lr)` from `P05-C01-simple-rnn.ipynb`:
`for param in params: param[:] = param - lr * param.grad`.
The in-place slice assignment rewrites each parameter's value and
touches nothing else, which the functional embedding renders as a map
that rebuilds `data` and keeps `grad`. -/
def SGD (ops : NDOps V) (params : List (Param V)) (lr : ℚ) : List (Param V) :=
  params.map (fun param => { param with data := ops.sub param.data (ops.smul lr param.grad) })

/-- Rational-valued instantiation of the framework operations, used to
evaluate the abstract theorems on concrete inputs. -/
def qOps : NDOps ℚ where
  add := (· + ·)
  mul := (· * ·)
  sub := (· - ·)
  dot := (· * ·)
  tanh := fun x => x
  sigmoid := fun x => x
  softmax := fun x _ => x
  one := 1
  smul := (· * ·)

/-- Lookup in a Python `dict` modelled as an association list (the
`Dictionary` below only ever inserts a key that is absent, so keys are
unique and insertion is an append). -/
def dictFind (w : String) : List (String × ℕ) → Option ℕ
  | [] => none
  | p :: rest => if p.1 = w then some p.2 else dictFind w rest

/-- The `Dictionary` class of the gluon language-model notebook:
`word2idx` is a dict from words to indices and `idx2word` the reverse
list for decoding. -/
structure Dictionary where
  word2idx : List (String × ℕ)
  idx2word : List String

/-- `Dictionary.__init__`: both containers start empty. -/
def Dictionary.empty : Dictionary := ⟨[], []⟩

/-- `Dictionary.add_word(word)`: if the word is absent, append it to
`idx2word` and record `word2idx[word] = len(idx2word) - 1`; in both
cases return `word2idx[word]` (paired here with the updated dictionary,
since the embedding is functional). -/
def add_word (d : Dictionary) (word : String) : ℕ × Dictionary :=
  match dictFind word d.word2idx with
  | some i => (i, d)
  | none =>
    let idx2word := d.idx2word ++ [word]
    let word2idx := d.word2idx ++ [(word, idx2word.length - 1)]
    (idx2word.length - 1, ⟨word2idx, idx2word⟩)

/-- A sequence of `add_word` calls, as performed by `Corpus.tokenize`. -/
def add_words (d : Dictionary) (ws : List String) : Dictionary :=
  ws.foldl (fun d w => (add_word d w).2) d

/-- `Dictionary.__len__`: the length of `idx2word`. -/
def Dictionary.len (d : Dictionary) : ℕ := d.idx2word.length

/-- The structural invariant `add_word` maintains: `word2idx` is exactly
the graph of the position map of `idx2word`, and `idx2word` has no
duplicates. -/
def dictWF (d : Dictionary) : Prop :=
  d.word2idx = d.idx2word.zip (List.range d.idx2word.length) ∧ d.idx2word.Nodup

/-- `nd.zeros(shape=(1, vocab_size))`, modelled as the single row it
holds: a vector of `vocab_size` zeros. -/
def nd_zeros (n : ℕ) : List ℚ := List.replicate n 0

/-- `one_hots(numerical_list, vocab_size)` from
`P05-C01-simple-rnn.ipynb`: for each index, allocate a zero row and set
position `idx` to `1.0` (`array[0, idx] = 1.0`); the loop-and-append is
rendered as a map. -/
def one_hots (numerical_list : List ℕ) (vocab_size : ℕ) : List (List ℚ) :=
  numerical_list.map (fun idx => (nd_zeros vocab_size).set idx 1)

/-- Scan underlying `nd.argmax(v, axis=0)`: position of the running
maximum, keeping the earlier position on ties. -/
def argmaxAux : List ℚ → ℕ → ℕ → ℚ → ℕ
  | [], best, _, _ => best
  | x :: rest, best, cur, bestv =>
    if bestv < x then argmaxAux rest cur (cur + 1) x
    else argmaxAux rest best (cur + 1) bestv

/-- `nd.argmax(v, axis=0)` on a vector: index of the first maximal
entry (0 on the empty vector). -/
def nd_argmax : List ℚ → ℕ
  | [] => 0
  | x :: rest => argmaxAux rest 0 1 x

/-- `textify(vector_list)` from `P05-C01-simple-rnn.ipynb`:
`result = ""`, then for each vector append
`character_list[int(nd.argmax(vector, axis=0).asscalar())]`. The global
`character_list` is passed explicitly. -/
def textify (character_list : List Char) (vector_list : List (List ℚ)) : String :=
  vector_list.foldl (fun result v => result.push (character_list.getD (nd_argmax v) ' ')) ""

/-- Where a propagating Python exception originates: in repository code
(an `assert` or `raise` written in the notebook) or in the underlying
framework / runtime. -/
inductive ErrSource
  | repo
  | framework
  deriving DecidableEq

/-- `average_ce_loss(outputs, labels)` from `P05-C01-simple-rnn.ipynb`:
first `assert(len(outputs) == len(labels))` — a failing assert raises
`AssertionError` in repository code, modelled as
`Except.error ErrSource.repo` — then `total_loss` accumulates
`cross_entropy(output, label)` over `zip(outputs, labels)` and the
result is `total_loss / len(outputs)`. `cross_entropy` delegates to
framework kernels (`nd.mean`, `nd.sum`, `nd.log`), so it enters the
embedding as the opaque parameter `ce`. -/
def average_ce_loss (ce : List ℚ → List ℚ → ℚ) (outputs labels : List (List ℚ)) :
    Except ErrSource ℚ :=
  if outputs.length = labels.length then
    Except.ok
      (((outputs.zip labels).foldl (fun total_loss p => total_loss + ce p.1 p.2) 0) /
        (outputs.length : ℚ))
  else Except.error ErrSource.repo

/-- `Corpus.tokenize(path)` from the gluon language-model notebook:
`assert os.path.exists(path)` — for a missing file the assert raises
`AssertionError` in repository code, modelled as
`Except.error ErrSource.repo` — then a first pass over the lines adds
every word plus a trailing `<eos>` to the dictionary, and a second pass
maps each word to `word2idx[word]`. The file system is modelled as a
partial map from paths to line contents (each line given as its
whitespace-split word list, since `line.split()` is Python library
string handling), and the second pass's dict lookup as a total `getD`
(the word was just added, so `KeyError` cannot occur). -/
def tokenize (fs : String → Option (List (List String))) (d : Dictionary) (path : String) :
    Except ErrSource (Dictionary × List ℕ) :=
  match fs path with
  | none => Except.error ErrSource.repo
  | some file_lines =>
    let d' := file_lines.foldl (fun d line => add_words d (line ++ ["<eos>"])) d
    let ids := (file_lines.map (fun line =>
      (line ++ ["<eos>"]).map (fun w => (dictFind w d'.word2idx).getD 0))).flatten
    Except.ok (d', ids)

/-- The decay head of each from-scratch training epoch:
`if ((e+1) % 100 == 0): learning_rate = learning_rate / 2.0`, run
before that epoch's parameter updates. -/
def lr_decay_step (lr : ℚ) (e : ℕ) : ℚ :=
  if (e + 1) % 100 = 0 then lr / 2 else lr

/-- The learning rate in effect during epoch `e` of the from-scratch
training loops (`learning_rate = .5` / `2.0` initially, then for each
`e in range(epochs)` the decay step followed by `SGD(params,
learning_rate)`): the initial rate transformed by the decay steps of
epochs `0..e`. -/
def learning_rate_at (init : ℚ) : ℕ → ℚ
  | 0 => lr_decay_step init 0
  | e + 1 => lr_decay_step (learning_rate_at init e) (e + 1)

/-- `eval(data_source)` from the gluon language-model notebook, with
the framework pieces (`RNNModel` forward pass and
`SoftmaxCrossEntropyLoss`) abstracted away: each iteration of
`for i in range(0, data_source.shape[0] - 1, args_bptt)` produces a
loss vector `L` holding one entry per prediction, and the loop
accumulates `total_L += mx.nd.sum(L).asscalar()` and
`ntotal += L.size`, returning `total_L / ntotal`. The embedding takes
the sequence of per-batch loss vectors as its input. -/
def eval_lm (batch_losses : List (List ℚ)) : ℚ :=
  let r := batch_losses.foldl
    (fun (acc : ℚ × ℕ) L => (acc.1 + L.sum, acc.2 + L.length)) ((0 : ℚ), (0 : ℕ))
  r.1 / (r.2 : ℚ)

/-- `math.exp(val_L)` as printed by `train` next to an `eval` result
(`validation perplexity`, `test perplexity`); `math.exp` is a Python
library call and enters as the opaque parameter `mexp`. -/
def reported_perplexity (mexp : ℚ → ℝ) (batch_losses : List (List ℚ)) : ℝ :=
  mexp (eval_lm batch_losses)

/-- The spec's quantity: the average negative log-likelihood, i.e. the
sum of all per-prediction losses divided by the number of predictions. -/
def average_nll (batch_losses : List (List ℚ)) : ℚ :=
  batch_losses.flatten.sum / (batch_losses.flatten.length : ℚ)

/-- `batchify(data, batch_size)` from the gluon language-model
notebook: `nbatch = data.shape[0] // batch_size`, truncate the 1-D
token array to its first `nbatch * batch_size` entries, reshape to
`(batch_size, nbatch)` and transpose to `(nbatch, batch_size)`. The
reshape is rendered row-by-row (row `j` holds tokens
`j*nbatch .. (j+1)*nbatch - 1`) and the transpose entry-by-entry. -/
def batchify (data : List ℕ) (batch_size : ℕ) : List (List ℕ) :=
  let nbatch := data.length / batch_size
  let truncated := data.take (nbatch * batch_size)
  let reshaped := (List.range batch_size).map
    (fun j => (truncated.drop (j * nbatch)).take nbatch)
  (List.range nbatch).map (fun t => reshaped.map (fun row => row.getD t 0))

/-- `args_bptt = 35` from the gluon language-model notebook's
configuration cell. -/
def args_bptt : ℕ := 35

/-- `get_batch(source, i)` from the gluon language-model notebook:
`seq_len = min(args_bptt, source.shape[0] - 1 - i)`,
`data = source[i : i + seq_len]`,
`target = source[i + 1 : i + 1 + seq_len].reshape((-1,))` — the rows of
the batchified source are modelled as lists and the final reshape as a
flatten. -/
def get_batch (source : List (List ℕ)) (i : ℕ) : List (List ℕ) × List ℕ :=
  let seq_len := min args_bptt (source.length - 1 - i)
  ((source.drop i).take seq_len, ((source.drop (i + 1)).take seq_len).flatten)

/-- `args_batch_size = 32` from the gluon language-model notebook's
configuration cell. -/
def args_batch_size : ℕ := 32

/-- `args_log_interval = 100` from the gluon language-model notebook's
configuration cell. -/
def args_log_interval : ℕ := 100

/-- The loss value `cur_L` of `train`'s periodic per-batch report:
inside the epoch loop `train` accumulates
`total_L += mx.nd.sum(L).asscalar()` over the batches since the
previous report (modelled by the window of per-batch loss vectors), and
when `ibatch % args_log_interval == 0` it prints
`cur_L = total_L / args_bptt / args_batch_size / args_log_interval`
and resets `total_L` to 0. -/
def train_batch_loss (window : List (List ℚ)) : ℚ :=
  (window.foldl (fun total_L L => total_L + L.sum) 0) /
    (args_bptt : ℚ) / (args_batch_size : ℚ) / (args_log_interval : ℚ)

/-- `math.exp(cur_L)` as printed by `train`'s periodic per-batch report
(`[Epoch %d Batch %d] loss %.2f, perplexity %.2f`); `math.exp` enters
as the opaque parameter `mexp`. -/
def reported_batch_perplexity (mexp : ℚ → ℝ) (window : List (List ℚ)) : ℝ :=
  mexp (train_batch_loss window)

lemma simple_rnn_fst (ops : NDOps V) (Wxh Whh bh Why b_y : V) (t : ℚ) :
    ∀ (inputs : List V) (h : V),
      (simple_rnn ops Wxh Whh bh Why b_y t inputs h).1 =
        rnn_spec_outputs ops Wxh Whh bh Why b_y t inputs h
  | [], _ => rfl
  | X :: rest, h => by
    simp only [simple_rnn, rnn_spec_outputs]
    exact congrArg _ (simple_rnn_fst ops Wxh Whh bh Why b_y t rest _)

lemma simple_rnn_snd (ops : NDOps V) (Wxh Whh bh Why b_y : V) (t : ℚ) :
    ∀ (inputs : List V) (h : V),
      (simple_rnn ops Wxh Whh bh Why b_y t inputs h).2 =
        rnn_spec_final ops Wxh Whh bh inputs h
  | [], _ => rfl
  | X :: rest, h => by
    simp only [simple_rnn, rnn_spec_final]
    exact simple_rnn_snd ops Wxh Whh bh Why b_y t rest _

lemma rnn_spec_outputs_length (ops : NDOps V) (Wxh Whh bh Why b_y : V) (t : ℚ) :
    ∀ (inputs : List V) (h : V),
      (rnn_spec_outputs ops Wxh Whh bh Why b_y t inputs h).length = inputs.length
  | [], _ => rfl
  | X :: rest, h => by
    simp only [rnn_spec_outputs, List.length_cons]
    exact congrArg Nat.succ (rnn_spec_outputs_length ops Wxh Whh bh Why b_y t rest _)

lemma gru_rnn_fst (ops : NDOps V) (Wxz Whz bz Wxr Whr br Wxh Whh bh Why b_y : V)
    (t : ℚ) :
    ∀ (inputs : List V) (h : V),
      (gru_rnn ops Wxz Whz bz Wxr Whr br Wxh Whh bh Why b_y t inputs h).1 =
        gru_spec_outputs ops Wxz Whz bz Wxr Whr br Wxh Whh bh Why b_y t inputs h
  | [], _ => rfl
  | X :: rest, h => by
    simp only [gru_rnn, gru_spec_outputs, gru_spec_step]
    exact congrArg _ (gru_rnn_fst ops Wxz Whz bz Wxr Whr br Wxh Whh bh Why b_y t rest _)

lemma gru_rnn_snd (ops : NDOps V) (Wxz Whz bz Wxr Whr br Wxh Whh bh Why b_y : V)
    (t : ℚ) :
    ∀ (inputs : List V) (h : V),
      (gru_rnn ops Wxz Whz bz Wxr Whr br Wxh Whh bh Why b_y t inputs h).2 =
        gru_spec_final ops Wxz Whz bz Wxr Whr br Wxh Whh bh inputs h
  | [], _ => rfl
  | X :: rest, h => by
    simp only [gru_rnn, gru_spec_final, gru_spec_step]
    exact gru_rnn_snd ops Wxz Whz bz Wxr Whr br Wxh Whh bh Why b_y t rest _

lemma gru_spec_outputs_length (ops : NDOps V)
    (Wxz Whz bz Wxr Whr br Wxh Whh bh Why b_y : V) (t : ℚ) :
    ∀ (inputs : List V) (h : V),
      (gru_spec_outputs ops Wxz Whz bz Wxr Whr br Wxh Whh bh Why b_y t inputs h).length =
        inputs.length
  | [], _ => rfl
  | X :: rest, h => by
    simp only [gru_spec_outputs, List.length_cons]
    exact congrArg Nat.succ
      (gru_spec_outputs_length ops Wxz Whz bz Wxr Whr br Wxh Whh bh Why b_y t rest _)

/-- C1: `simple_rnn(inputs, state)` and `gru_rnn(inputs, h)` are direct
transcriptions of the standard recurrence equations: the list of outputs
is exactly the sequence `yhat_t = softmax(h_t*Why + by)` (one output per
input element) for the hidden states `h_t` generated by
`h_t = tanh(X_t*Wxh + h_(t-1)*Whh + bh)` (simple RNN) resp. the GRU
update `h_t = z_t*h_(t-1) + (1-z_t)*tanh(X_t*Wxh + (r_t*h_(t-1))*Whh + bh)`
with gates `z_t = sigmoid(X_t*Wxz + h_(t-1)*Whz + bz)` and
`r_t = sigmoid(X_t*Wxr + h_(t-1)*Whr + br)`, and the second component is
the final hidden state `h_T`; this holds for every temperature, in
particular the default `1.0` used by the two-argument calls. -/
theorem c1_rnn_gru_transcription (V : Type) (ops : NDOps V)
    (Wxz Whz bz Wxr Whr br Wxh Whh bh Why b_y : V) (t : ℚ)
    (inputs : List V) (state : V) :
    (simple_rnn ops Wxh Whh bh Why b_y t inputs state).1 =
        rnn_spec_outputs ops Wxh Whh bh Why b_y t inputs state ∧
      (simple_rnn ops Wxh Whh bh Why b_y t inputs state).2 =
        rnn_spec_final ops Wxh Whh bh inputs state ∧
      (simple_rnn ops Wxh Whh bh Why b_y t inputs state).1.length = inputs.length ∧
      (gru_rnn ops Wxz Whz bz Wxr Whr br Wxh Whh bh Why b_y t inputs state).1 =
        gru_spec_outputs ops Wxz Whz bz Wxr Whr br Wxh Whh bh Why b_y t inputs state ∧
      (gru_rnn ops Wxz Whz bz Wxr Whr br Wxh Whh bh Why b_y t inputs state).2 =
        gru_spec_final ops Wxz Whz bz Wxr Whr br Wxh Whh bh inputs state ∧
      (gru_rnn ops Wxz Whz bz Wxr Whr br Wxh Whh bh Why b_y t inputs state).1.length =
        inputs.length := by
  refine ⟨simple_rnn_fst ops Wxh Whh bh Why b_y t inputs state,
    simple_rnn_snd ops Wxh Whh bh Why b_y t inputs state, ?_,
    gru_rnn_fst ops Wxz Whz bz Wxr Whr br Wxh Whh bh Why b_y t inputs state,
    gru_rnn_snd ops Wxz Whz bz Wxr Whr br Wxh Whh bh Why b_y t inputs state, ?_⟩
  · rw [simple_rnn_fst]
    exact rnn_spec_outputs_length ops Wxh Whh bh Why b_y t inputs state
  · rw [gru_rnn_fst]
    exact gru_spec_outputs_length ops Wxz Whz bz Wxr Whr br Wxh Whh bh Why b_y t inputs state

/-- C2: `SGD(params, lr)` sets each parameter's value to its previous
value minus `lr` times that parameter's gradient, and changes nothing
else: the list keeps its length and order, every updated `data` is
`data - lr * grad`, and every `grad` buffer is untouched. -/
theorem c2_sgd_update (V : Type) (ops : NDOps V) (params : List (Param V))
    (lr : ℚ) (d : Param V) (i : ℕ) (hi : i < params.length) :
    (SGD ops params lr).length = params.length ∧
      ((SGD ops params lr).getD i d).data =
        ops.sub ((params.getD i d).data) (ops.smul lr ((params.getD i d).grad)) ∧
      ((SGD ops params lr).getD i d).grad = (params.getD i d).grad := by
  have hlen : (SGD ops params lr).length = params.length := List.length_map _ _
  have hget : (SGD ops params lr).getD i d =
      { params.getD i d with
        data := ops.sub ((params.getD i d).data) (ops.smul lr ((params.getD i d).grad)) } := by
    have hi' : i < (SGD ops params lr).length := hlen ▸ hi
    rw [List.getD_eq_getElem _ _ hi', List.getD_eq_getElem _ _ hi]
    simp [SGD]
  exact ⟨hlen, by rw [hget], by rw [hget]⟩

lemma dictFind_zip_range' (w : String) :
    ∀ (l : List String) (s : ℕ),
      dictFind w (l.zip (List.range' s l.length)) =
        if w ∈ l then some (s + l.indexOf w) else none
  | [], s => by simp [dictFind]
  | a :: l, s => by
    have hz : (a :: l).zip (List.range' s (a :: l).length) =
        (a, s) :: l.zip (List.range' (s + 1) l.length) := rfl
    rw [hz]
    by_cases h : a = w
    · subst h
      simp [dictFind, List.indexOf_cons_self]
    · have hne : w ≠ a := fun hw => h hw.symm
      show (if a = w then some s else dictFind w (l.zip (List.range' (s + 1) l.length))) = _
      rw [if_neg h, dictFind_zip_range' w l (s + 1)]
      by_cases hm : w ∈ l
      · simp only [hm, if_true, List.mem_cons, hne, false_or]
        rw [List.indexOf_cons_ne _ h]
        exact congrArg some (by omega)
      · have : w ∉ a :: l := by simp [hm, hne]
        simp [hm, this]

lemma dictFind_wf {d : Dictionary} (hwf : dictWF d) (w : String) :
    dictFind w d.word2idx =
      if w ∈ d.idx2word then some (d.idx2word.indexOf w) else none := by
  rw [hwf.1, List.range_eq_range', dictFind_zip_range']
  simp

lemma dictWF_empty : dictWF Dictionary.empty := by
  constructor <;> simp [Dictionary.empty]

lemma dictWF_add_word {d : Dictionary} (hwf : dictWF d) (w : String) :
    dictWF (add_word d w).2 := by
  unfold add_word
  rw [dictFind_wf hwf w]
  by_cases hm : w ∈ d.idx2word
  · simpa [hm] using hwf
  · simp only [hm, if_false]
    refine ⟨?_, ?_⟩
    · show d.word2idx ++ [(w, (d.idx2word ++ [w]).length - 1)] =
        (d.idx2word ++ [w]).zip (List.range (d.idx2word ++ [w]).length)
      rw [List.length_append, List.length_singleton, List.range_succ,
        List.zip_append (by simp), hwf.1]
      simp
    · show (d.idx2word ++ [w]).Nodup
      simp [List.nodup_append, hwf.2, hm]

lemma mem_add_word {d : Dictionary} (hwf : dictWF d) (w x : String) :
    x ∈ (add_word d w).2.idx2word ↔ x ∈ d.idx2word ∨ x = w := by
  unfold add_word
  rw [dictFind_wf hwf w]
  by_cases hm : w ∈ d.idx2word
  · simp only [hm, if_true]
    constructor
    · exact Or.inl
    · rintro (h | rfl)
      · exact h
      · exact hm
  · simp only [hm, if_false]
    show x ∈ d.idx2word ++ [w] ↔ _
    simp

lemma dictWF_add_words {d : Dictionary} (hwf : dictWF d) :
    ∀ ws : List String, dictWF (add_words d ws)
  | [] => hwf
  | w :: ws => dictWF_add_words (dictWF_add_word hwf w) ws

lemma mem_add_words {d : Dictionary} (hwf : dictWF d) (x : String) :
    ∀ ws : List String,
      (x ∈ (add_words d ws).idx2word ↔ x ∈ d.idx2word ∨ x ∈ ws)
  | [] => by simp [add_words]
  | w :: ws => by
    show x ∈ (add_words (add_word d w).2 ws).idx2word ↔ _
    rw [mem_add_words (dictWF_add_word hwf w) x ws, mem_add_word hwf w x]
    constructor
    · rintro ((h | rfl) | h)
      · exact Or.inl h
      · exact Or.inr (List.mem_cons_self _ _)
      · exact Or.inr (List.mem_cons_of_mem _ h)
    · rintro (h | h)
      · exact Or.inl (Or.inl h)
      · rcases List.mem_cons.1 h with rfl | h
        · exact Or.inl (Or.inr rfl)
        · exact Or.inr h

/-- C3: starting from an empty `Dictionary` and performing any sequence
of `add_word` calls, (a) `idx2word[word2idx[w]] == w` for every added
word `w`; (b) `word2idx[idx2word[i]] == i` for every `i < len(idx2word)`;
(c) `add_word` is idempotent, returning the already-assigned index and
leaving the dictionary unchanged when the word is present; and
(d) `len(dictionary)` equals the number of distinct words added. -/
theorem c3_dictionary_bijection (ws : List String) :
    (∀ w ∈ ws, ∃ i, dictFind w (add_words Dictionary.empty ws).word2idx = some i ∧
        (add_words Dictionary.empty ws).idx2word.get? i = some w) ∧
      (∀ i, i < (add_words Dictionary.empty ws).idx2word.length →
        dictFind ((add_words Dictionary.empty ws).idx2word.getD i "")
          (add_words Dictionary.empty ws).word2idx = some i) ∧
      (∀ w i, dictFind w (add_words Dictionary.empty ws).word2idx = some i →
        add_word (add_words Dictionary.empty ws) w = (i, add_words Dictionary.empty ws)) ∧
      Dictionary.len (add_words Dictionary.empty ws) = ws.toFinset.card := by
  have hwf : dictWF (add_words Dictionary.empty ws) := dictWF_add_words dictWF_empty ws
  have hmem : ∀ x, x ∈ (add_words Dictionary.empty ws).idx2word ↔ x ∈ ws := by
    intro x
    rw [mem_add_words dictWF_empty x ws]
    simp [Dictionary.empty]
  refine ⟨?_, ?_, ?_, ?_⟩
  · intro w hw
    have hw' : w ∈ (add_words Dictionary.empty ws).idx2word := (hmem w).2 hw
    refine ⟨(add_words Dictionary.empty ws).idx2word.indexOf w, ?_, ?_⟩
    · rw [dictFind_wf hwf w]
      simp [hw']
    · exact List.indexOf_get? hw'
  · intro i hi
    have hgd : (add_words Dictionary.empty ws).idx2word.getD i "" =
        (add_words Dictionary.empty ws).idx2word.get ⟨i, hi⟩ := by
      rw [List.getD_eq_getElem _ _ hi]
      simp
    rw [hgd, dictFind_wf hwf]
    have hm : (add_words Dictionary.empty ws).idx2word.get ⟨i, hi⟩ ∈
        (add_words Dictionary.empty ws).idx2word := List.get_mem _ _ _
    simp only [hm, if_true]
    rw [List.get_indexOf hwf.2]
  · intro w i hfind
    unfold add_word
    rw [hfind]
  · show (add_words Dictionary.empty ws).idx2word.length = _
    rw [← List.toFinset_card_of_nodup hwf.2]
    congr 1
    ext x
    simp [hmem x]

/-- C3 witness: the bijection laws evaluated on the concrete word
sequence `["a", "b", "a"]`. -/
theorem c3_dictionary_bijection_witness :
    (∃ i, dictFind "b" (add_words Dictionary.empty ["a", "b", "a"]).word2idx = some i ∧
        (add_words Dictionary.empty ["a", "b", "a"]).idx2word.get? i = some "b") ∧
      dictFind ((add_words Dictionary.empty ["a", "b", "a"]).idx2word.getD 0 "")
          (add_words Dictionary.empty ["a", "b", "a"]).word2idx = some 0 ∧
      add_word (add_words Dictionary.empty ["a", "b", "a"]) "a" =
        (0, add_words Dictionary.empty ["a", "b", "a"]) ∧
      Dictionary.len (add_words Dictionary.empty ["a", "b", "a"]) =
        (["a", "b", "a"] : List String).toFinset.card := by
  have h := c3_dictionary_bijection ["a", "b", "a"]
  exact ⟨h.1 "b" (by decide), h.2.1 0 (by decide), h.2.2.1 "a" 0 (by decide), h.2.2.2⟩

/-- C2 witness: the SGD update law evaluated on a concrete parameter list. -/
theorem c2_sgd_update_witness :
    (SGD qOps [⟨10, 4⟩, ⟨3, 2⟩] (1/2)).length = 2 ∧
      ((SGD qOps [⟨10, 4⟩, ⟨3, 2⟩] (1/2)).getD 0 ⟨0, 0⟩).data = qOps.sub 10 (qOps.smul (1/2) 4) ∧
      ((SGD qOps [⟨10, 4⟩, ⟨3, 2⟩] (1/2)).getD 0 ⟨0, 0⟩).grad = 4 := by
  have h := c2_sgd_update ℚ qOps [⟨10, 4⟩, ⟨3, 2⟩] (1/2) ⟨0, 0⟩ 0 (by decide)
  exact ⟨h.1, h.2.1, h.2.2⟩

lemma one_hot_entry (V i j : ℕ) (_hi : i < V) (hj : j < V) :
    ((List.replicate V (0 : ℚ)).set i 1).getD j 0 = if j = i then 1 else 0 := by
  have hj' : j < ((List.replicate V (0 : ℚ)).set i 1).length := by
    simpa using hj
  rw [List.getD_eq_getElem _ _ hj', List.getElem_set]
  by_cases h : i = j
  · simp [h]
  · have h' : ¬j = i := fun hc => h hc.symm
    simp [h, h']

lemma argmaxAux_ones_after (k : ℕ) :
    ∀ best cur : ℕ, argmaxAux (List.replicate k (0 : ℚ)) best cur 1 = best := by
  induction k with
  | zero => intro best cur; rfl
  | succ k ih =>
    intro best cur
    show argmaxAux (0 :: List.replicate k (0 : ℚ)) best cur 1 = best
    rw [argmaxAux, if_neg (by norm_num)]
    exact ih best (cur + 1)

lemma argmaxAux_before_one (b : ℕ) :
    ∀ (a best cur : ℕ),
      argmaxAux (List.replicate a (0 : ℚ) ++ 1 :: List.replicate b 0) best cur 0 = cur + a := by
  intro a
  induction a with
  | zero =>
    intro best cur
    show argmaxAux (1 :: List.replicate b (0 : ℚ)) best cur 0 = cur + 0
    rw [argmaxAux, if_pos (by norm_num), argmaxAux_ones_after]
    omega
  | succ a ih =>
    intro best cur
    show argmaxAux (0 :: (List.replicate a (0 : ℚ) ++ 1 :: List.replicate b 0)) best cur 0 =
      cur + (a + 1)
    rw [argmaxAux, if_neg (by norm_num), ih best (cur + 1)]
    omega

lemma set_replicate_one :
    ∀ (i V : ℕ), i < V →
      (List.replicate V (0 : ℚ)).set i 1 =
        List.replicate i 0 ++ 1 :: List.replicate (V - i - 1) 0
  | 0, V + 1, _ => by simp [List.replicate_succ]
  | i + 1, V + 1, h => by
    rw [List.replicate_succ, List.set_cons_succ, set_replicate_one i V (by omega)]
    simp [List.replicate_succ]

lemma nd_argmax_one_hot (V i : ℕ) (hi : i < V) :
    nd_argmax ((List.replicate V (0 : ℚ)).set i 1) = i := by
  rw [set_replicate_one i V hi]
  cases i with
  | zero =>
    show nd_argmax (1 :: List.replicate (V - 1) (0 : ℚ)) = 0
    rw [nd_argmax, argmaxAux_ones_after]
  | succ j =>
    show nd_argmax (0 :: (List.replicate j (0 : ℚ) ++ 1 :: List.replicate (V - (j + 1) - 1) 0)) =
      j + 1
    rw [nd_argmax, argmaxAux_before_one]
    omega

lemma textify_foldl_data (clist : List Char) :
    ∀ (vl : List (List ℚ)) (s : String),
      (vl.foldl (fun result v => result.push (clist.getD (nd_argmax v) ' ')) s).data =
        s.data ++ vl.map (fun v => clist.getD (nd_argmax v) ' ')
  | [], s => by simp
  | v :: vl, s => by
    rw [List.foldl_cons, textify_foldl_data clist vl, String.data_push]
    simp

/-- C4: for indices below `vocab_size`, `one_hots` returns one vector
per index, each of length `vocab_size`, with value `1.0` exactly at the
index and `0.0` everywhere else. -/
theorem c4_one_hots_encoding (ixs : List ℕ) (V : ℕ) (hV : ∀ i ∈ ixs, i < V) :
    (one_hots ixs V).length = ixs.length ∧
      (∀ v ∈ one_hots ixs V, v.length = V) ∧
      ∀ k, k < ixs.length → ∀ j, j < V →
        ((one_hots ixs V).getD k []).getD j 0 = if j = ixs.getD k 0 then 1 else 0 := by
  refine ⟨List.length_map _ _, ?_, ?_⟩
  · intro v hv
    rcases List.mem_map.1 hv with ⟨i, _, rfl⟩
    simp [nd_zeros]
  · intro k hk j hj
    have hk' : k < (one_hots ixs V).length := by
      simpa [one_hots] using hk
    rw [List.getD_eq_getElem _ _ hk', List.getD_eq_getElem _ _ hk]
    have hone : (one_hots ixs V)[k] = (nd_zeros V).set ixs[k] 1 := by
      simp [one_hots]
    rw [hone]
    exact one_hot_entry V ixs[k] j (hV _ (List.getElem_mem hk)) hj

/-- C4 witness: the one-hot law on the concrete index list `[2, 0]` with
`vocab_size = 3`. -/
theorem c4_one_hots_encoding_witness :
    (one_hots [2, 0] 3).length = 2 ∧
      ((one_hots [2, 0] 3).getD 0 []).getD 2 0 = 1 ∧
      ((one_hots [2, 0] 3).getD 0 []).getD 1 0 = 0 := by
  have h := c4_one_hots_encoding [2, 0] 3 (by decide)
  refine ⟨h.1, ?_, ?_⟩
  · have := h.2.2 0 (by decide) 2 (by decide)
    simpa using this
  · have := h.2.2 0 (by decide) 1 (by decide)
    simpa using this

/-- C5: decoding is a left inverse of one-hot encoding: for indices
below `vocab_size` (with `character_list` of that length),
`textify(one_hots(ixs))` is the string whose `k`-th character is
`character_list[ixs[k]]`. -/
theorem c5_textify_left_inverse (ixs : List ℕ) (V : ℕ) (clist : List Char)
    (_hlen : clist.length = V) (hV : ∀ i ∈ ixs, i < V) :
    (textify clist (one_hots ixs V)).data = ixs.map (fun i => clist.getD i ' ') := by
  unfold textify one_hots
  rw [textify_foldl_data]
  show [] ++ _ = _
  rw [List.nil_append, List.map_map]
  refine List.map_congr_left ?_
  intro i hi
  show clist.getD (nd_argmax ((nd_zeros V).set i 1)) ' ' = clist.getD i ' '
  rw [nd_zeros, nd_argmax_one_hot V i (hV i hi)]

/-- C5 witness: encode-then-decode on the concrete indices `[2, 0]` over
the three-character vocabulary `['a', 'b', 'c']`. -/
theorem c5_textify_left_inverse_witness :
    (textify ['a', 'b', 'c'] (one_hots [2, 0] 3)).data =
      [2, 0].map (fun i => (['a', 'b', 'c'] : List Char).getD i ' ') :=
  c5_textify_left_inverse [2, 0] 3 ['a', 'b', 'c'] (by decide) (by decide)

/-- C6 counterexample: the claim says that for a missing corpus file and
for unequal-length loss arguments, the propagating exception "is one
raised by the underlying framework, not one raised by repository code".
At both cited sites the repository's own `assert` raises first:
`Corpus.tokenize` on a missing file and `average_ce_loss` on lists of
lengths 1 and 0 both produce a repository-raised `AssertionError`. -/
theorem c6_repo_raises_counterexample :
    tokenize (fun _ => none) Dictionary.empty "./data/nlp/ptb.train.txt" =
        Except.error ErrSource.repo ∧
      average_ce_loss (fun _ _ => 0) [[1]] [] = Except.error ErrSource.repo ∧
      ErrSource.repo ≠ ErrSource.framework :=
  ⟨rfl, rfl, by decide⟩

/-- C6 amended: the repository performs no recovery or retry, but it
does raise its own errors at the two cited sites: for every file system
in which the path is missing, `Corpus.tokenize` fails with the
repository's own `AssertionError`, and for all output/label lists of
unequal length, `average_ce_loss` fails with the repository's own
`AssertionError` (regardless of the framework loss kernel). -/
theorem c6_repo_assertions (fs : String → Option (List (List String)))
    (d : Dictionary) (path : String) (hfs : fs path = none)
    (ce : List ℚ → List ℚ → ℚ) (outputs labels : List (List ℚ))
    (hne : outputs.length ≠ labels.length) :
    tokenize fs d path = Except.error ErrSource.repo ∧
      average_ce_loss ce outputs labels = Except.error ErrSource.repo := by
  constructor
  · unfold tokenize
    rw [hfs]
  · unfold average_ce_loss
    rw [if_neg hne]

/-- C6 witness: the amended assertion behaviour at a concrete missing
path and a concrete unequal-length pair. -/
theorem c6_repo_assertions_witness :
    tokenize (fun _ => none) Dictionary.empty "./data/nlp/ptb.valid.txt" =
        Except.error ErrSource.repo ∧
      average_ce_loss (fun _ _ => 1) [[2], [3]] [[2]] = Except.error ErrSource.repo :=
  c6_repo_assertions (fun _ => none) Dictionary.empty "./data/nlp/ptb.valid.txt" rfl
    (fun _ _ => 1) [[2], [3]] [[2]] (by decide)

/-- C7: the from-scratch training loops divide the learning rate by 2
exactly when `(e+1) % 100 == 0`, before epoch `e`'s updates, so the
rate in effect during epoch `e` is the initial rate divided by
`2^((e+1)/100)`; between those points it is unchanged. -/
theorem c7_learning_rate_schedule (init : ℚ) :
    (∀ e, learning_rate_at init e = init / 2 ^ ((e + 1) / 100)) ∧
      ∀ e, learning_rate_at init (e + 1) =
        if (e + 1 + 1) % 100 = 0 then learning_rate_at init e / 2
        else learning_rate_at init e := by
  constructor
  · intro e
    induction e with
    | zero => simp [learning_rate_at, lr_decay_step]
    | succ e ih =>
      rw [learning_rate_at, ih, lr_decay_step]
      have hsd : (e + 1 + 1) / 100 = (e + 1) / 100 + if 100 ∣ (e + 1 + 1) then 1 else 0 :=
        Nat.succ_div _ _
      by_cases h : (e + 1 + 1) % 100 = 0
      · have hdvd : 100 ∣ (e + 1 + 1) := Nat.dvd_of_mod_eq_zero h
        rw [if_pos h, hsd, if_pos hdvd, pow_succ, ← div_div]
      · have hdvd : ¬100 ∣ (e + 1 + 1) := fun hc => h (Nat.mod_eq_zero_of_dvd hc)
        rw [if_neg h, hsd, if_neg hdvd, add_zero]
  · intro e
    rfl

lemma eval_lm_fold (bs : List (List ℚ)) :
    ∀ (a : ℚ) (n : ℕ),
      bs.foldl (fun (acc : ℚ × ℕ) L => (acc.1 + L.sum, acc.2 + L.length)) (a, n) =
        (a + bs.flatten.sum, n + bs.flatten.length) := by
  induction bs with
  | nil => intro a n; simp
  | cons L bs ih =>
    intro a n
    rw [List.foldl_cons, ih]
    simp [add_assoc]

lemma total_loss_foldl :
    ∀ (window : List (List ℚ)) (a : ℚ),
      window.foldl (fun total_L L => total_L + L.sum) a = a + window.flatten.sum
  | [], a => by simp
  | L :: window, a => by
    rw [List.foldl_cons, total_loss_foldl window]
    simp [add_assoc]

lemma flatten_length_const (c : ℕ) :
    ∀ window : List (List ℚ), (∀ L ∈ window, L.length = c) →
      window.flatten.length = window.length * c
  | [], _ => by simp
  | L :: window, h => by
    rw [List.flatten_cons, List.length_append,
      flatten_length_const c window (fun M hM => h M (List.mem_cons_of_mem _ hM)),
      h L (List.mem_cons_self _ _), List.length_cons]
    ring

lemma flatten_sum_replicate (x : List ℚ) :
    ∀ n : ℕ, (List.replicate n x).flatten.sum = n * x.sum
  | 0 => by simp
  | n + 1 => by
    rw [List.replicate_succ, List.flatten_cons, List.sum_append,
      flatten_sum_replicate x n]
    push_cast
    ring

/-- C8 counterexample: the claim says every perplexity printed by
`train` equals `exp` of the average negative log-likelihood, but the
per-batch report prints `math.exp(cur_L)` with the fixed denominator
`args_bptt * args_batch_size * args_log_interval`. At the first report
of an epoch the window holds `args_log_interval + 1 = 101` batches
(batches `0 .. 100` accumulate before the first reset); with 101 full
batches of `35 * 32 = 1120` predictions of loss `1` each, the average
negative log-likelihood is `1` while `cur_L = 101/100`, so the printed
perplexity `exp(101/100)` differs from `exp(1)`. -/
theorem c8_train_print_counterexample :
    train_batch_loss (List.replicate 101 (List.replicate 1120 (1 : ℚ))) ≠
        average_nll (List.replicate 101 (List.replicate 1120 (1 : ℚ))) ∧
      reported_batch_perplexity (fun q => Real.exp (q : ℝ))
          (List.replicate 101 (List.replicate 1120 (1 : ℚ))) ≠
        Real.exp ((average_nll (List.replicate 101 (List.replicate 1120 (1 : ℚ))) : ℚ) : ℝ) := by
  have hsum : (List.replicate 101 (List.replicate 1120 (1 : ℚ))).flatten.sum = 113120 := by
    rw [flatten_sum_replicate, List.sum_replicate, nsmul_eq_mul]
    norm_num
  have hlen : (List.replicate 101 (List.replicate 1120 (1 : ℚ))).flatten.length = 113120 := by
    rw [flatten_length_const 1120 _
        (fun L hL => by rw [List.eq_of_mem_replicate hL, List.length_replicate]),
      List.length_replicate]
  have hcur : train_batch_loss (List.replicate 101 (List.replicate 1120 (1 : ℚ))) =
      101 / 100 := by
    unfold train_batch_loss
    rw [total_loss_foldl, hsum]
    simp only [args_bptt, args_batch_size, args_log_interval]
    norm_num
  have havg : average_nll (List.replicate 101 (List.replicate 1120 (1 : ℚ))) = 1 := by
    unfold average_nll
    rw [hsum, hlen]
    norm_num
  constructor
  · rw [hcur, havg]
    norm_num
  · show Real.exp ((train_batch_loss _ : ℚ) : ℝ) ≠ _
    rw [hcur, havg]
    intro hc
    rw [Real.exp_eq_exp] at hc
    norm_num at hc

/-- C8 (amended): `eval(data_source)` returns the sum of per-prediction
losses divided by the number of predictions — the average negative
log-likelihood — and the validation/test perplexities `train` prints
next to an `eval` result equal `exp` of exactly that average loss.
`train`'s periodic per-batch report instead prints `exp` of
`cur_L = total_L / args_bptt / args_batch_size / args_log_interval`, a
fixed-denominator statistic that coincides with the window's average
negative log-likelihood (so its printed perplexity with `exp` of that
average) exactly under the uniform-window condition: the window holds
`args_log_interval` batches of `args_bptt * args_batch_size`
predictions each. -/
theorem c8_eval_perplexity_amended (batch_losses window : List (List ℚ)) (mexp : ℚ → ℝ)
    (hfull : ∀ L ∈ window, L.length = args_bptt * args_batch_size)
    (hwin : window.length = args_log_interval) :
    eval_lm batch_losses = average_nll batch_losses ∧
      reported_perplexity mexp batch_losses = mexp (average_nll batch_losses) ∧
      train_batch_loss window = average_nll window ∧
      reported_batch_perplexity mexp window = mexp (average_nll window) := by
  have h : eval_lm batch_losses = average_nll batch_losses := by
    unfold eval_lm average_nll
    rw [eval_lm_fold]
    simp
  have hb : train_batch_loss window = average_nll window := by
    unfold train_batch_loss average_nll
    rw [total_loss_foldl, flatten_length_const (args_bptt * args_batch_size) window hfull,
      hwin]
    simp only [args_bptt, args_batch_size, args_log_interval]
    rw [div_div, div_div]
    norm_num
  exact ⟨h, by rw [reported_perplexity, h], hb, by rw [reported_batch_perplexity, hb]⟩

/-- C8 witness: the amended law at a concrete loss list and a concrete
uniform window of 100 batches with 1120 predictions each. -/
theorem c8_eval_perplexity_amended_witness :
    eval_lm [[1, 3]] = average_nll [[1, 3]] ∧
      train_batch_loss (List.replicate 100 (List.replicate 1120 (0 : ℚ))) =
        average_nll (List.replicate 100 (List.replicate 1120 (0 : ℚ))) := by
  have h := c8_eval_perplexity_amended [[1, 3]]
    (List.replicate 100 (List.replicate 1120 (0 : ℚ))) (fun q => (q : ℝ))
    (fun L hL => by
      rw [List.eq_of_mem_replicate hL, List.length_replicate]
      simp only [args_bptt, args_batch_size])
    (by rw [List.length_replicate]; simp only [args_log_interval])
  exact ⟨h.1, h.2.2.1⟩

lemma slice_eq_map_range {α : Type} (d : α) :
    ∀ (l : List α) (i s : ℕ), i + s ≤ l.length →
      (l.drop i).take s = (List.range s).map (fun k => l.getD (i + k) d) := by
  intro l i s hs
  refine List.ext_getElem ?_ ?_
  · rw [List.length_take, List.length_drop, List.length_map, List.length_range]
    omega
  · intro k h1 h2
    have hk : k < s := by
      rw [List.length_map, List.length_range] at h2
      exact h2
    have hik : i + k < l.length := by omega
    rw [List.getElem_take _, List.getElem_drop _, List.getElem_map _,
      List.getElem_range _ (by rwa [List.length_range])]
    rw [List.getD_eq_getElem _ _ hik]

lemma batchify_eq (data : List ℕ) (b : ℕ) :
    batchify data b = (List.range (data.length / b)).map (fun t =>
      ((List.range b).map (fun j =>
        ((data.take (data.length / b * b)).drop (j * (data.length / b))).take
          (data.length / b))).map (fun row => row.getD t 0)) := rfl

/-- C9: for `1 <= batch_size <= data.length`, `batchify` returns an
array of shape `(n // b, b)` whose column `j` is the `j`-th contiguous
segment of the first `(n // b) * b` tokens, in order (the trailing
`n mod b` tokens are discarded). -/
theorem c9_batchify_columns (data : List ℕ) (b : ℕ) (_hb : 1 ≤ b)
    (_hbn : b ≤ data.length) :
    (batchify data b).length = data.length / b ∧
      (∀ row ∈ batchify data b, row.length = b) ∧
      ∀ j, j < b →
        (batchify data b).map (fun row => row.getD j 0) =
          (List.range (data.length / b)).map
            (fun t => data.getD (j * (data.length / b) + t) 0) := by
  have hnb : data.length / b * b ≤ data.length := Nat.div_mul_le_self _ _
  have htl : (data.take (data.length / b * b)).length = data.length / b * b := by
    rw [List.length_take]
    omega
  refine ⟨?_, ?_, ?_⟩
  · rw [batchify_eq, List.length_map, List.length_range]
  · intro row hrow
    rw [batchify_eq] at hrow
    rcases List.mem_map.1 hrow with ⟨t, _, rfl⟩
    rw [List.length_map, List.length_map, List.length_range]
  · intro j hj
    rw [batchify_eq]
    refine List.ext_getElem ?_ ?_
    · rw [List.length_map, List.length_map, List.length_range,
        List.length_map, List.length_range]
    · intro t h1 h2
      have ht : t < data.length / b := by
        rw [List.length_map, List.length_range] at h2
        exact h2
      rw [List.getElem_map _, List.getElem_map _, List.getElem_map _,
        List.getElem_range _ (by rwa [List.length_range])]
      have hjlen : j < (((List.range b).map (fun j =>
          ((data.take (data.length / b * b)).drop (j * (data.length / b))).take
            (data.length / b))).map (fun row => row.getD t 0)).length := by
        rw [List.length_map, List.length_map, List.length_range]
        exact hj
      rw [List.getD_eq_getElem _ _ hjlen, List.getElem_map _,
        List.getElem_map _, List.getElem_range _ (by rwa [List.length_range])]
      have hseg : j * (data.length / b) + data.length / b ≤
          (data.take (data.length / b * b)).length := by
        rw [htl]
        have h5 : (j + 1) * (data.length / b) ≤ b * (data.length / b) :=
          Nat.mul_le_mul_right _ (by omega)
        calc j * (data.length / b) + data.length / b
            = (j + 1) * (data.length / b) := by ring
          _ ≤ b * (data.length / b) := h5
          _ = data.length / b * b := Nat.mul_comm _ _
      rw [slice_eq_map_range 0 _ _ _ hseg]
      have ht' : t < ((List.range (data.length / b)).map
          (fun k => (data.take (data.length / b * b)).getD
            (j * (data.length / b) + k) 0)).length := by
        rw [List.length_map, List.length_range]
        exact ht
      rw [List.getD_eq_getElem _ _ ht', List.getElem_map _,
        List.getElem_range _ (by rwa [List.length_range])]
      have hidx : j * (data.length / b) + t < data.length / b * b := by
        have h5 : (j + 1) * (data.length / b) ≤ b * (data.length / b) :=
          Nat.mul_le_mul_right _ (by omega)
        have h6 : j * (data.length / b) + t < (j + 1) * (data.length / b) := by
          calc j * (data.length / b) + t
              < j * (data.length / b) + data.length / b := by omega
            _ = (j + 1) * (data.length / b) := by ring
        calc j * (data.length / b) + t < (j + 1) * (data.length / b) := h6
          _ ≤ b * (data.length / b) := h5
          _ = data.length / b * b := Nat.mul_comm _ _
      have h3 : j * (data.length / b) + t < (data.take (data.length / b * b)).length := by
        rw [htl]; exact hidx
      have h4 : j * (data.length / b) + t < data.length := lt_of_lt_of_le hidx hnb
      rw [List.getD_eq_getElem _ _ h3, List.getD_eq_getElem _ _ h4, List.getElem_take _]

/-- C9 witness: the batchify shape/column law on the concrete token
array `[0, 1, 2, 3, 4]` with `batch_size = 2` (the trailing token `4`
is discarded), together with the concrete value. -/
theorem c9_batchify_columns_witness :
    (batchify [0, 1, 2, 3, 4] 2).length = [0, 1, 2, 3, 4].length / 2 ∧
      (batchify [0, 1, 2, 3, 4] 2).map (fun row => row.getD 1 0) =
        (List.range ([0, 1, 2, 3, 4].length / 2)).map
          (fun t => ([0, 1, 2, 3, 4] : List ℕ).getD
            (1 * ([0, 1, 2, 3, 4].length / 2) + t) 0) ∧
      batchify [0, 1, 2, 3, 4] 2 = [[0, 2], [1, 3]] := by
  have h := c9_batchify_columns [0, 1, 2, 3, 4] 2 (by decide) (by decide)
  exact ⟨h.1, h.2.2 1 (by decide), by decide⟩

lemma get_batch_eq (source : List (List ℕ)) (i : ℕ) :
    get_batch source i =
      ((source.drop i).take (min args_bptt (source.length - 1 - i)),
        ((source.drop (i + 1)).take (min args_bptt (source.length - 1 - i))).flatten) := rfl

/-- C10: for `0 <= i < L - 1` over a batchified source of `L` rows,
`get_batch(source, i)` returns `data` equal to rows `i .. i+s-1` and
`target` equal to rows `i+1 .. i+s` flattened, with
`s = min(args_bptt, L - 1 - i)`; the target is the input shifted
forward by one row, `s >= 1`, and both slices lie within bounds. -/
theorem c10_get_batch_shift (source : List (List ℕ)) (i : ℕ)
    (hi : i + 1 < source.length) :
    1 ≤ min args_bptt (source.length - 1 - i) ∧
      (get_batch source i).1.length = min args_bptt (source.length - 1 - i) ∧
      (∀ k, k < min args_bptt (source.length - 1 - i) →
        (get_batch source i).1.getD k [] = source.getD (i + k) []) ∧
      (get_batch source i).2 =
        ((List.range (min args_bptt (source.length - 1 - i))).map
          (fun k => source.getD (i + 1 + k) [])).flatten ∧
      i + min args_bptt (source.length - 1 - i) ≤ source.length ∧
      i + 1 + min args_bptt (source.length - 1 - i) ≤ source.length := by
  have hb : args_bptt = 35 := rfl
  have hs1 : 1 ≤ min args_bptt (source.length - 1 - i) := by
    rw [hb]
    omega
  have hsle : i + 1 + min args_bptt (source.length - 1 - i) ≤ source.length := by
    rw [hb]
    omega
  have hdata : (source.drop i).take (min args_bptt (source.length - 1 - i)) =
      (List.range (min args_bptt (source.length - 1 - i))).map
        (fun k => source.getD (i + k) []) :=
    slice_eq_map_range [] source i _ (by omega)
  have htgt : (source.drop (i + 1)).take (min args_bptt (source.length - 1 - i)) =
      (List.range (min args_bptt (source.length - 1 - i))).map
        (fun k => source.getD (i + 1 + k) []) :=
    slice_eq_map_range [] source (i + 1) _ (by omega)
  refine ⟨hs1, ?_, ?_, ?_, by omega, hsle⟩
  · rw [get_batch_eq, hdata, List.length_map, List.length_range]
  · intro k hk
    rw [get_batch_eq]
    show ((source.drop i).take (min args_bptt (source.length - 1 - i))).getD k [] = _
    rw [hdata]
    have hk' : k < ((List.range (min args_bptt (source.length - 1 - i))).map
        (fun k => source.getD (i + k) [])).length := by
      rw [List.length_map, List.length_range]
      exact hk
    rw [List.getD_eq_getElem _ _ hk', List.getElem_map _,
      List.getElem_range _ (by rwa [List.length_range])]
  · rw [get_batch_eq]
    show ((source.drop (i + 1)).take (min args_bptt (source.length - 1 - i))).flatten = _
    rw [htgt]

/-- C10 witness: the slice/shift law on the concrete three-row source
`[[0], [1], [2]]` at offset `i = 1` (so `s = min(35, 1) = 1`), together
with the concrete value. -/
theorem c10_get_batch_shift_witness :
    1 ≤ min args_bptt (([[0], [1], [2]] : List (List ℕ)).length - 1 - 1) ∧
      (get_batch [[0], [1], [2]] 1).2 =
        ((List.range (min args_bptt (([[0], [1], [2]] : List (List ℕ)).length - 1 - 1))).map
          (fun k => ([[0], [1], [2]] : List (List ℕ)).getD (1 + 1 + k) [])).flatten ∧
      get_batch [[0], [1], [2]] 1 = ([[1]], [2]) := by
  have h := c10_get_batch_shift [[0], [1], [2]] 1 (by decide)
  exact ⟨h.1, h.2.2.2.1, by decide⟩

end StraightDope
